import Mathlib

/-!
Verification of the executor-combinator algebra, step lifecycle and
auxiliary index cache of the `gha` workflow runner, against its
natural-language specification.

The executor combinators live in `pkg/common`; their behaviour is modelled
here as state-passing functions (an executor receives a cancellable context
and a state and returns the new state together with an optional failure),
with side effects made observable through the threaded state.
-/

namespace Gha

/-- Failure reasons an executor or execution-environment operation can
produce.  `canceled` is the error of a cancelled shared context
(Go's `context.Canceled`); `executionFailed` carries a non-zero exit code;
`notReachable` is an unreachable environment; `msg` is any other error
(e.g. the `fmt.Errorf` failures the tests build). -/
inductive Err where
  | canceled
  | notReachable
  | executionFailed (code : Nat)
  | msg (s : String)
deriving DecidableEq, Repr

/-- The shared cancellable context.  Only the fact of cancellation is
observable to the combinators (`ctx.Err() != nil`). -/
structure Ctx where
  canceled : Bool
deriving DecidableEq, Repr

/-- An executor: `func(ctx context.Context) error`, embedded as a state
transformer so that the side effects of a Go closure (counter increments,
appended log entries) become an explicit state of type `σ`.  `none` is a
`nil` error (success). -/
def Exec (σ : Type) : Type := Ctx → σ → σ × Option Err

/-- `NewPipelineExecutor(executors...)`.
Modelled from the spec: `pkg/common/executor.go` is absent from the
sources (only `executor_test.go` is present); per the spec the pipeline
"runs sequentially; stops at the first failure without running the rest
(fail-fast); empty pipeline succeeds trivially". -/
def NewPipelineExecutor {σ : Type} : List (Exec σ) → Exec σ
  | [] => fun _ s => (s, none)
  | e :: es => fun ctx s =>
      match e ctx s with
      | (s₁, none) => NewPipelineExecutor es ctx s₁
      | (s₁, some err) => (s₁, some err)

/-- `NewErrorExecutor(err)`: always fails immediately with the given
reason.  Modelled from the spec: "Error(reason): always fails
immediately". -/
def NewErrorExecutor {σ : Type} (err : Err) : Exec σ :=
  fun _ s => (s, some err)

/-- `NewConditionalExecutor(conditional, trueExecutor, falseExecutor)`.
Modelled from the spec: `pkg/common/executor.go` is absent from the
sources; per the spec the combinator "evaluates predicate once, runs
exactly one branch".  The predicate is an effectful closure, so it is a
state transformer returning a `Bool`. -/
def NewConditionalExecutor {σ : Type} (conditional : Ctx → σ → σ × Bool)
    (trueExecutor falseExecutor : Exec σ) : Exec σ :=
  fun ctx s =>
    match conditional ctx s with
    | (s₁, true) => trueExecutor ctx s₁
    | (s₁, false) => falseExecutor ctx s₁

/-- An uncancelled context, as `context.Background()` in the tests. -/
def ctxBg : Ctx := ⟨false⟩

/-- A context already cancelled before anything starts. -/
def ctxCanceled : Ctx := ⟨true⟩

/-- A successful executor that records the event `i` in the log state. -/
def logStep (i : Nat) : Exec (List Nat) := fun _ log => (log ++ [i], none)

/-- A failing executor that records the event `i` and then fails with `e`. -/
def logFail (i : Nat) (e : Err) : Exec (List Nat) :=
  fun _ log => (log ++ [i], some e)

/-- Running a pipeline on a list split `pre ++ rest`: once the prefix
succeeds, the run continues on `rest` from the prefix's final state. -/
theorem pipeline_append_of_ok {σ : Type} (pre rest : List (Exec σ))
    (ctx : Ctx) :
    ∀ (s s₁ : σ), NewPipelineExecutor pre ctx s = (s₁, none) →
      NewPipelineExecutor (pre ++ rest) ctx s = NewPipelineExecutor rest ctx s₁ := by
  induction pre with
  | nil =>
      intro s s₁ h
      simp only [NewPipelineExecutor] at h
      cases h
      simp
  | cons e es ih =>
      intro s s₁ h
      simp only [NewPipelineExecutor] at h ⊢
      cases he : e ctx s with
      | mk s' r =>
          cases r with
          | none =>
              rw [he] at h
              simp only at h
              exact ih s' s₁ h
          | some err =>
              rw [he] at h
              simp at h


/-- C1: for every `Pipeline(e1..en)` and every `k`, if executor `k` fails
then executors `k+1..n` are never invoked — the final state is exactly the
state left by executor `k`, independent of the remaining executors — and
the Pipeline's result equals executor `k`'s failure; the empty Pipeline
succeeds. -/
theorem pipeline_fail_fast {σ : Type} (pre post : List (Exec σ)) (f : Exec σ)
    (ctx : Ctx) (s s₁ s₂ : σ) (err : Err)
    (hpre : NewPipelineExecutor pre ctx s = (s₁, none))
    (hf : f ctx s₁ = (s₂, some err)) :
    NewPipelineExecutor (pre ++ f :: post) ctx s = (s₂, some err) ∧
    NewPipelineExecutor ([] : List (Exec σ)) ctx s = (s, none) := by
  constructor
  · rw [pipeline_append_of_ok pre (f :: post) ctx s s₁ hpre]
    simp only [NewPipelineExecutor]
    rw [hf]
  · rfl

/-- Witness for `pipeline_fail_fast`: the pipeline `[logStep 0, logFail 1,
logStep 2]` stops at the failure of its second executor — the log ends at
`[0, 1]`, executor `2` never records anything. -/
theorem pipeline_fail_fast_witness :
    NewPipelineExecutor [logStep 0] ctxBg ([] : List Nat) = ([0], none) ∧
    logFail 1 (Err.msg "test error") ctxBg [0] = ([0, 1], some (Err.msg "test error")) ∧
    NewPipelineExecutor ([logStep 0] ++ logFail 1 (Err.msg "test error") :: [logStep 2])
        ctxBg ([] : List Nat) = ([0, 1], some (Err.msg "test error")) := by
  refine ⟨rfl, rfl, ?_⟩
  exact (pipeline_fail_fast [logStep 0] [logStep 2] (logFail 1 (Err.msg "test error"))
    ctxBg [] [0] [0, 1] (Err.msg "test error") rfl rfl).1

/-- C6: for every `Conditional(predicate, onTrue, onFalse)` the predicate
is evaluated exactly once and exactly one branch runs: the whole run equals
one evaluation of the predicate followed by exactly the selected branch on
the predicate's post-state (first conjunct, for arbitrary instrumented
executors); with logging executors the log records one predicate
evaluation (`0`) and exactly one branch event (`1` when true, `2` when
false), never both and never neither (second conjunct). -/
theorem conditional_exactly_one_branch :
    (∀ (σ : Type) (p : Ctx → σ → σ × Bool) (t f : Exec σ) (ctx : Ctx) (s : σ),
      NewConditionalExecutor p t f ctx s =
        (if (p ctx s).2 then t ctx (p ctx s).1 else f ctx (p ctx s).1)) ∧
    (∀ (b : Bool) (rt rf : Option Err) (ctx : Ctx) (log : List Nat),
      NewConditionalExecutor (fun _ l => (l ++ [0], b))
          (fun _ l => (l ++ [1], rt)) (fun _ l => (l ++ [2], rf)) ctx log =
        (log ++ [0, if b then 1 else 2], if b then rt else rf)) := by
  constructor
  · intro σ p t f ctx s
    simp only [NewConditionalExecutor]
    cases hp : p ctx s with
    | mk s₁ b => cases b <;> simp
  · intro b rt rf ctx log
    cases b <;> simp [NewConditionalExecutor]

/-! ## Parallel executor

`NewParallelExecutor(parallel, executors...)` is modelled from the spec
(`pkg/common/executor.go` is absent from the sources, only
`executor_test.go` is present): the children are handed in list order to a
fixed pool of `parallel` workers (a bound `≤ 0` normalizes to `1`); a
child starts only when a pool slot is free (acquire before start) and
frees its slot when it completes (release on completion); completion
order is nondeterministic; the combinator waits for all children.  Per the
spec, "every executor is started and runs to completion even if a sibling
fails or the shared context is already cancelled", and a cancelled shared
context makes the operation itself fail with Cancelled — the latter also
pinned by `TestNewParallelExecutorFailed`, which expects
`context.Canceled` back from a parallel run whose only child failed with
a different error. -/

/-- `if 1 > parallel { parallel = 1 }`: the normalized pool size. -/
def normalizeParallel (parallel : Int) : Nat :=
  if parallel < 1 then 1 else parallel.toNat

/-- State of one run of the worker pool over `m` children: `started`
children `0..started-1` have been taken off the work queue (the queue
delivers them in list order), `running` are started but not yet finished,
`done` lists finished children in completion order. -/
structure PState (m : Nat) where
  started : Nat
  running : Finset (Fin m)
  done : List (Fin m)
deriving DecidableEq

/-- The initial state: nothing started. -/
def PState.init (m : Nat) : PState m := ⟨0, ∅, []⟩

/-- A run is complete when every child was started and none is running. -/
def PState.Final {m : Nat} (s : PState m) : Prop :=
  s.started = m ∧ s.running = ∅

instance {m : Nat} (s : PState m) : Decidable s.Final := by
  unfold PState.Final; infer_instance

/-- One scheduling step of the pool with capacity `cap`: either the next
queued child starts (only if a pool slot is free — acquire before start),
or some running child finishes (freeing its slot — release on
completion).  The relation does not consult the shared context nor any
child's result: a cancelled context or a failed sibling never prevents a
child from starting or finishing. -/
inductive PStep (m cap : Nat) : PState m → PState m → Prop where
  | start (s : PState m) (h : s.started < m) (hfree : s.running.card < cap) :
      PStep m cap s ⟨s.started + 1, insert (⟨s.started, h⟩ : Fin m) s.running, s.done⟩
  | finish (s : PState m) (i : Fin m) (hi : i ∈ s.running) :
      PStep m cap s ⟨s.started, s.running.erase i, s.done ++ [i]⟩

/-- Reachability from the initial state under capacity `cap`. -/
def PReach (m cap : Nat) (s : PState m) : Prop :=
  Relation.ReflTransGen (PStep m cap) (PState.init m) s

/-- First non-`nil` error received on the error channel. -/
def firstError : List (Option Err) → Option Err
  | [] => none
  | some e :: _ => some e
  | none :: rest => firstError rest

/-- The value the parallel executor returns once all children have
completed: `ctx.Err()` if the shared context is cancelled, otherwise the
first recorded failure in completion order, otherwise `nil`. -/
def parallelResult {m : Nat} (ctx : Ctx) (children : Fin m → Ctx → Option Err)
    (s : PState m) : Option Err :=
  if ctx.canceled then some Err.canceled
  else firstError (s.done.map fun i => children i ctx)

/-- `NewParallelExecutor(parallel, e1..em)` as a relation between a
context and a possible overall result: one result per complete schedule
of the pool. -/
def NewParallelExecutor (parallel : Int) {m : Nat}
    (children : Fin m → Ctx → Option Err) (ctx : Ctx) (r : Option Err) : Prop :=
  ∃ s : PState m, PReach m (normalizeParallel parallel) s ∧ s.Final ∧
    parallelResult ctx children s = r

/-- The normalized pool always has at least one slot. -/
theorem one_le_normalizeParallel (p : Int) : 1 ≤ normalizeParallel p := by
  unfold normalizeParallel
  split
  · exact le_refl 1
  · omega

/-- Well-formedness invariant of pool states: no child beyond the queue,
no duplicate completions, running and done disjoint, and a child has been
started iff it is running or done. -/
def PWf {m : Nat} (s : PState m) : Prop :=
  s.started ≤ m ∧ s.done.Nodup ∧
  (∀ i : Fin m, ¬(i ∈ s.running ∧ i ∈ s.done)) ∧
  (∀ i : Fin m, (i ∈ s.running ∨ i ∈ s.done) ↔ (i : Nat) < s.started)

theorem pwf_init (m : Nat) : PWf (PState.init m) := by
  refine ⟨Nat.zero_le m, List.nodup_nil, ?_, ?_⟩ <;> simp [PState.init]

theorem pwf_step {m cap : Nat} {s t : PState m} (h : PStep m cap s t)
    (hw : PWf s) : PWf t := by
  obtain ⟨h1, h2, h3, h4⟩ := hw
  cases h with
  | start hs hfree =>
      refine ⟨hs, h2, ?_, ?_⟩
      · intro i ⟨hir, hid⟩
        rcases Finset.mem_insert.mp hir with hij | hir'
        · subst hij
          have := (h4 _).mp (Or.inr hid)
          simp at this
        · exact h3 i ⟨hir', hid⟩
      · intro i
        simp only [Finset.mem_insert]
        constructor
        · rintro ((hij | hir) | hid)
          · subst hij; simp
          · have := (h4 i).mp (Or.inl hir); simp; omega
          · have := (h4 i).mp (Or.inr hid); simp; omega
        · intro hlt
          simp only at hlt
          by_cases hiv : (i : Nat) < s.started
          · rcases (h4 i).mpr hiv with hir | hid
            · exact Or.inl (Or.inr hir)
            · exact Or.inr hid
          · have : (i : Nat) = s.started := by omega
            exact Or.inl (Or.inl (Fin.ext this))
  | finish i hi =>
      have hid : i ∉ s.done := fun hd => h3 i ⟨hi, hd⟩
      refine ⟨h1, ?_, ?_, ?_⟩
      · simp [List.nodup_append, h2, hid]
      · intro j ⟨hjr, hjd⟩
        obtain ⟨hji, hjr'⟩ := Finset.mem_erase.mp hjr
        rcases List.mem_append.mp hjd with hjd' | hji'
        · exact h3 j ⟨hjr', hjd'⟩
        · simp at hji'; exact hji hji'
      · intro j
        simp only [List.mem_append, List.mem_singleton]
        constructor
        · rintro (hjr | hjd | hji)
          · exact (h4 j).mp (Or.inl (Finset.mem_erase.mp hjr).2)
          · exact (h4 j).mp (Or.inr hjd)
          · subst hji; exact (h4 j).mp (Or.inl hi)
        · intro hlt
          rcases (h4 j).mpr hlt with hjr | hjd
          · by_cases hji : j = i
            · exact Or.inr (Or.inr hji)
            · exact Or.inl (Finset.mem_erase.mpr ⟨hji, hjr⟩)
          · exact Or.inr (Or.inl hjd)

/-- Every reachable pool state is well-formed. -/
theorem preach_pwf {m cap : Nat} {s : PState m} (h : PReach m cap s) : PWf s := by
  induction h with
  | refl => exact pwf_init m
  | tail _ hstep ih => exact pwf_step hstep ih

/-- The admission pool is respected along any reachable state: at most
`cap` children are running. -/
theorem preach_card_le {m cap : Nat} {s : PState m} (h : PReach m cap s) :
    s.running.card ≤ cap := by
  induction h with
  | refl => simp [PState.init]
  | tail _ hstep ih =>
      cases hstep with
      | start hs hfree =>
          exact le_trans (Finset.card_insert_le _ _) hfree
      | finish i hi => exact le_trans (Finset.card_erase_le) ih

/-- Progress: a well-formed non-final state always has a next scheduling
step (some child can still start or finish) — the pool never deadlocks and
never abandons a child. -/
theorem pstep_progress {m cap : Nat} (hcap : 1 ≤ cap) {s : PState m}
    (hw : PWf s) (hnf : ¬ s.Final) : ∃ t, PStep m cap s t := by
  by_cases hrun : s.running = ∅
  · have hs : s.started < m := by
      rcases Nat.lt_or_ge s.started m with h | h
      · exact h
      · exact absurd ⟨Nat.le_antisymm hw.1 h, hrun⟩ hnf
    exact ⟨_, PStep.start s hs (by simp [hrun]; omega)⟩
  · obtain ⟨i, hi⟩ := Finset.nonempty_iff_ne_empty.mpr hrun
    exact ⟨_, PStep.finish s i hi⟩

/-- In a complete reachable run every child appears exactly once in the
completion list. -/
theorem preach_final_done {m cap : Nat} {s : PState m} (hr : PReach m cap s)
    (hf : s.Final) : s.done.Nodup ∧ ∀ i : Fin m, i ∈ s.done := by
  obtain ⟨h1, h2, h3, h4⟩ := preach_pwf hr
  refine ⟨h2, fun i => ?_⟩
  have := (h4 i).mpr (by rw [hf.1]; exact i.isLt)
  rcases this with hir | hid
  · rw [hf.2] at hir; simp at hir
  · exact hid

theorem firstError_eq_none_iff (l : List (Option Err)) :
    firstError l = none ↔ ∀ x ∈ l, x = none := by
  induction l with
  | nil => simp [firstError]
  | cons x rest ih => cases x <;> simp [firstError, ih]

theorem firstError_map_eq_some {α : Type} (f : α → Option Err) (l : List α)
    (e : Err) (h : firstError (l.map f) = some e) :
    ∃ l₁ i l₂, l = l₁ ++ i :: l₂ ∧ f i = some e ∧ ∀ j ∈ l₁, f j = none := by
  induction l with
  | nil => simp [firstError] at h
  | cons a rest ih =>
      cases ha : f a with
      | some e' =>
          have he : e' = e := by
            simp only [List.map_cons, ha, firstError] at h
            exact Option.some.inj h
          exact ⟨[], a, rest, by simp, by rw [ha, he], by simp⟩
      | none =>
          simp only [List.map_cons, ha, firstError] at h
          obtain ⟨l₁, i, l₂, h1, h2, h3⟩ := ih h
          refine ⟨a :: l₁, i, l₂, by simp [h1], h2, ?_⟩
          intro j hj
          rcases List.mem_cons.mp hj with hj | hj
          · rw [hj, ha]
          · exact h3 j hj

/-- The complete one-child schedule: start child `0`, then it finishes. -/
theorem preach_one_child (cap : Nat) (hcap : 1 ≤ cap) :
    PReach 1 cap ⟨1, ∅, [⟨0, Nat.one_pos⟩]⟩ := by
  have h1 : PStep 1 cap (PState.init 1)
      ⟨1, insert (⟨0, Nat.one_pos⟩ : Fin 1) ∅, []⟩ :=
    PStep.start (PState.init 1) Nat.one_pos
      (by simp [PState.init]; omega)
  have h2 : PStep 1 cap ⟨1, insert (⟨0, Nat.one_pos⟩ : Fin 1) ∅, []⟩
      ⟨1, (insert (⟨0, Nat.one_pos⟩ : Fin 1) (∅ : Finset (Fin 1))).erase
        ⟨0, Nat.one_pos⟩, [] ++ [⟨0, Nat.one_pos⟩]⟩ :=
    PStep.finish _ ⟨0, Nat.one_pos⟩ (Finset.mem_insert_self _ _)
  have he : (insert (⟨0, Nat.one_pos⟩ : Fin 1) (∅ : Finset (Fin 1))).erase
      ⟨0, Nat.one_pos⟩ = ∅ := by decide
  have := Relation.ReflTransGen.tail (Relation.ReflTransGen.single h1) h2
  rw [he] at this
  exact this

/-- C2: for every `Parallel(parallel, e1..em)` every child is started and
run to completion, each exactly once, and no child is abandoned: any
reachable incomplete schedule can always take another scheduling step, and
in any complete schedule the completion list contains every child exactly
once.  The scheduling relation `PStep` never consults the shared context
or any child's result, so this holds even when a sibling fails and even
when the context was cancelled before the parallel executor started. -/
theorem parallel_runs_all_children (parallel : Int) (m : Nat) (s : PState m)
    (hr : PReach m (normalizeParallel parallel) s) :
    (¬ s.Final → ∃ t, PStep m (normalizeParallel parallel) s t) ∧
    (s.Final → s.done.Nodup ∧ ∀ i : Fin m, i ∈ s.done) :=
  ⟨fun hnf => pstep_progress (one_le_normalizeParallel parallel) (preach_pwf hr) hnf,
   fun hf => preach_final_done hr hf⟩

/-- Witness for `parallel_runs_all_children`: the complete one-child
schedule under bound 2 — the child appears exactly once in the completion
list. -/
theorem parallel_runs_all_children_witness :
    (¬ (⟨1, ∅, [⟨0, Nat.one_pos⟩]⟩ : PState 1).Final →
      ∃ t, PStep 1 (normalizeParallel 2) ⟨1, ∅, [⟨0, Nat.one_pos⟩]⟩ t) ∧
    ((⟨1, ∅, [⟨0, Nat.one_pos⟩]⟩ : PState 1).Final →
      (⟨1, ∅, [⟨0, Nat.one_pos⟩]⟩ : PState 1).done.Nodup ∧
      ∀ i : Fin 1, i ∈ (⟨1, ∅, [⟨0, Nat.one_pos⟩]⟩ : PState 1).done) :=
  parallel_runs_all_children 2 1 _
    (preach_one_child _ (one_le_normalizeParallel 2))

/-- C5: for `Parallel(n, e1..em)` with `1 ≤ n < m`, at any instant at
most `n` children are running: in every reachable schedule state the
running set has at most `n` elements, enforced by the pool guard of
`PStep.start` (acquire before start) and the erasure of `PStep.finish`
(release on completion). -/
theorem parallel_bounded_concurrency (n : Int) (m : Nat) (hn : 1 ≤ n)
    (hm : n.toNat < m) (s : PState m)
    (hr : PReach m (normalizeParallel n) s) :
    s.running.card ≤ n.toNat := by
  have hnp : normalizeParallel n = n.toNat := by
    unfold normalizeParallel; split <;> omega
  rw [hnp] at hr
  exact preach_card_le hr

/-- Witness for `parallel_bounded_concurrency` at `n = 2`, `m = 3`. -/
theorem parallel_bounded_concurrency_witness :
    (1 : Int) ≤ 2 ∧ (2 : Int).toNat < 3 ∧
    (PState.init 3).running.card ≤ (2 : Int).toNat :=
  ⟨by decide, by decide,
   parallel_bounded_concurrency 2 3 (by decide) (by decide) _
     Relation.ReflTransGen.refl⟩

/-- C4: `Parallel(b, e1..em)` with `b ≤ 0` is observably
`Parallel(1, e1..em)`: the normalized pool size is the same, exactly the
same schedules are reachable (so the same children run, with the same
possible results), at most one child runs at a time, and every possible
overall result of the one system is a possible result of the other. -/
theorem parallel_nonpositive_bound_as_one (b : Int) (hb : b ≤ 0) :
    normalizeParallel b = normalizeParallel 1 ∧
    (∀ (m : Nat) (s : PState m),
      PReach m (normalizeParallel b) s ↔ PReach m (normalizeParallel 1) s) ∧
    (∀ (m : Nat) (s : PState m), PReach m (normalizeParallel b) s →
      s.running.card ≤ 1) ∧
    (∀ (m : Nat) (children : Fin m → Ctx → Option Err) (ctx : Ctx)
      (r : Option Err),
      NewParallelExecutor b children ctx r ↔ NewParallelExecutor 1 children ctx r) := by
  have h : normalizeParallel b = normalizeParallel 1 := by
    unfold normalizeParallel; split <;> split <;> omega
  have h1 : normalizeParallel 1 = 1 := by decide
  refine ⟨h, fun m s => by rw [h], fun m s hr => ?_, fun m children ctx r => ?_⟩
  · have := preach_card_le hr
    rw [h, h1] at this
    exact this
  · unfold NewParallelExecutor
    rw [h]

/-- Witness for `parallel_nonpositive_bound_as_one` at `b = 0`, the bound
exercised by `TestNewParallelExecutor`. -/
theorem parallel_nonpositive_bound_as_one_witness :
    normalizeParallel 0 = normalizeParallel 1 ∧
    (∀ (m : Nat) (s : PState m),
      PReach m (normalizeParallel 0) s ↔ PReach m (normalizeParallel 1) s) ∧
    (∀ (m : Nat) (s : PState m), PReach m (normalizeParallel 0) s →
      s.running.card ≤ 1) ∧
    (∀ (m : Nat) (children : Fin m → Ctx → Option Err) (ctx : Ctx)
      (r : Option Err),
      NewParallelExecutor 0 children ctx r ↔ NewParallelExecutor 1 children ctx r) :=
  parallel_nonpositive_bound_as_one 0 (by decide)

/-- C3 counterexample, mirroring `TestNewParallelExecutorFailed`: in the
complete run of `Parallel(1, errorWorkflow)` under a context cancelled
before the start, the only child runs and fails with "fake error" — the
first (and only) recorded failure among the children — yet the overall
result is `context.Canceled`, which is neither that failure nor success. -/
theorem parallel_result_not_first_child_failure :
    NewParallelExecutor 1 (fun (_ : Fin 1) _ => some (Err.msg "fake error"))
      ctxCanceled (some Err.canceled) ∧
    firstError (((⟨1, ∅, [⟨0, Nat.one_pos⟩]⟩ : PState 1).done).map
      fun (_ : Fin 1) => (some (Err.msg "fake error") : Option Err)) =
      some (Err.msg "fake error") ∧
    (some Err.canceled : Option Err) ≠ some (Err.msg "fake error") ∧
    (some Err.canceled : Option Err) ≠ none :=
  ⟨⟨⟨1, ∅, [⟨0, Nat.one_pos⟩]⟩, preach_one_child _ (one_le_normalizeParallel 1),
    by decide, rfl⟩, rfl, by decide, by decide⟩

/-- C3 amended: provided the shared context is not cancelled, the
parallel executor's result is the first recorded failure among its
children in completion order — the failing child's error, with every
child completed before it having succeeded — and success exactly when no
child fails; when the shared context is cancelled the result is the
Cancelled error instead. -/
theorem parallel_first_recorded_failure (parallel : Int) (m : Nat)
    (children : Fin m → Ctx → Option Err) (ctx : Ctx) (s : PState m)
    (hr : PReach m (normalizeParallel parallel) s) (hf : s.Final) :
    (ctx.canceled = false →
      (parallelResult ctx children s = none ↔ ∀ i, children i ctx = none) ∧
      (∀ e, parallelResult ctx children s = some e →
        ∃ l₁ i l₂, s.done = l₁ ++ i :: l₂ ∧ children i ctx = some e ∧
          ∀ j ∈ l₁, children j ctx = none)) ∧
    (ctx.canceled = true →
      parallelResult ctx children s = some Err.canceled) := by
  constructor
  · intro hc
    have hres : parallelResult ctx children s =
        firstError (s.done.map fun i => children i ctx) := by
      unfold parallelResult; rw [hc]; simp
    constructor
    · rw [hres, firstError_eq_none_iff]
      constructor
      · intro h i
        exact h (children i ctx) (List.mem_map_of_mem _ ((preach_final_done hr hf).2 i))
      · intro h x hx
        obtain ⟨i, _, hxi⟩ := List.mem_map.mp hx
        rw [← hxi]; exact h i
    · intro e he
      rw [hres] at he
      exact firstError_map_eq_some _ _ _ he
  · intro hc
    unfold parallelResult; rw [hc]; simp

/-- Witness for `parallel_first_recorded_failure`: the complete one-child
schedule, with a succeeding child under `context.Background()`. -/
theorem parallel_first_recorded_failure_witness :
    ((ctxBg.canceled = false →
      (parallelResult ctxBg (fun (_ : Fin 1) _ => (none : Option Err))
          ⟨1, ∅, [⟨0, Nat.one_pos⟩]⟩ = none ↔
        ∀ i : Fin 1, (none : Option Err) = none) ∧
      (∀ e, parallelResult ctxBg (fun (_ : Fin 1) _ => (none : Option Err))
          ⟨1, ∅, [⟨0, Nat.one_pos⟩]⟩ = some e →
        ∃ l₁ i l₂, (⟨1, ∅, [⟨0, Nat.one_pos⟩]⟩ : PState 1).done = l₁ ++ i :: l₂ ∧
          (none : Option Err) = some e ∧
          ∀ j ∈ l₁, (none : Option Err) = none)) ∧
    (ctxBg.canceled = true →
      parallelResult ctxBg (fun (_ : Fin 1) _ => (none : Option Err))
        ⟨1, ∅, [⟨0, Nat.one_pos⟩]⟩ = some Err.canceled)) :=
  parallel_first_recorded_failure 3 1 (fun _ _ => none) ctxBg _
    (preach_one_child _ (one_le_normalizeParallel 3)) (by decide)

/-- C9 counterexample, mirroring `TestNewParallelExecutorFailed` (the
test observes `count == 1` under a pre-cancelled context): the child's
body runs in the complete schedule — it appears in the completion list —
so cancellation before the start does not prevent executor bodies from
running; the overall result is nonetheless the Cancelled error. -/
theorem parallel_canceled_body_still_runs :
    ctxCanceled.canceled = true ∧
    PReach 1 (normalizeParallel 1) ⟨1, ∅, [⟨0, Nat.one_pos⟩]⟩ ∧
    (⟨1, ∅, [⟨0, Nat.one_pos⟩]⟩ : PState 1).Final ∧
    (⟨0, Nat.one_pos⟩ : Fin 1) ∈ (⟨1, ∅, [⟨0, Nat.one_pos⟩]⟩ : PState 1).done ∧
    parallelResult ctxCanceled (fun _ _ => some (Err.msg "fake error"))
      ⟨1, ∅, [⟨0, Nat.one_pos⟩]⟩ = some Err.canceled :=
  ⟨rfl, preach_one_child _ (one_le_normalizeParallel 1), by decide, by decide, rfl⟩

/-- C9 amended: a context cancelled before the parallel executor starts
makes its overall result the Cancelled error, but produces no skipping of
work — every complete schedule still starts and finishes every child
exactly once. -/
theorem parallel_canceled_result (parallel : Int) (m : Nat)
    (children : Fin m → Ctx → Option Err) (ctx : Ctx)
    (hc : ctx.canceled = true) :
    (∀ r, NewParallelExecutor parallel children ctx r → r = some Err.canceled) ∧
    (∀ s : PState m, PReach m (normalizeParallel parallel) s → s.Final →
      s.done.Nodup ∧ ∀ i : Fin m, i ∈ s.done) := by
  constructor
  · rintro r ⟨s, _, _, hres⟩
    rw [← hres]
    unfold parallelResult
    rw [hc]
    simp
  · intro s hr hf
    exact preach_final_done hr hf

/-- Witness for `parallel_canceled_result` under the pre-cancelled
context of the tests. -/
theorem parallel_canceled_result_witness :
    ((∀ r, NewParallelExecutor 3 (fun (_ : Fin 1) _ => (none : Option Err))
        ctxCanceled r → r = some Err.canceled) ∧
    (∀ s : PState 1, PReach 1 (normalizeParallel 3) s → s.Final →
      s.done.Nodup ∧ ∀ i : Fin 1, i ∈ s.done)) :=
  parallel_canceled_result 3 1 (fun _ _ => none) ctxCanceled rfl

/-! ## Path translation into the execution environment

`LinuxContainerEnvironmentExtensions.ToContainerPath` is modelled from the
spec (`pkg/container/linux_container_environment_extensions.go` is absent
from the sources, only its test is present): the host path is made
absolute against the working directory; on a Linux host the absolute path
is used as is, up to Go's `filepath.Clean` (the test pins the cleaning:
`/home/gha/` maps to `/home/gha`); on a Windows host an absolute path
`X:\a\b` is rewritten to `/mnt/x/a/b` — drive letter lowercased,
backslash segments joined with `/`, trailing separator dropped.  Paths
are processed as character lists; `splitSegs`/`cleanSegs` mirror the
split-rewrite-join the code performs. -/

/-- Splits a character list at every occurrence of `sep`
(Go `strings.Split`). -/
def splitSegs (sep : Char) (l : List Char) : List (List Char) :=
  l.splitOn sep

/-- Go `filepath.Clean` on a rooted path, at the segment level: empty and
`.` segments vanish, `..` pops the previous segment (or vanishes at the
root). -/
def cleanSegs (segs : List (List Char)) : List (List Char) :=
  segs.foldl
    (fun acc seg =>
      if seg = ([] : List Char) ∨ seg = ['.'] then acc
      else if seg = ['.', '.'] then acc.dropLast
      else acc ++ [seg])
    []

/-- Rebuilds a rooted path from cleaned segments: `/a/b/…`. -/
def rootedPath (segs : List (List Char)) : String :=
  String.mk ('/' :: List.intercalate ['/'] segs)

/-- Does the path look like a Windows absolute path `X:\…`
(the `^([a-zA-Z]):\\(.+)$` test of the code)? -/
def isWinAbs : List Char → Bool
  | d :: c₁ :: c₂ :: _ => d.isAlpha && c₁ = ':' && c₂ = '\\'
  | _ => false

/-- Same-OS (Linux host, Linux environment) translation: resolve against
the working directory, then clean. -/
def toContainerPathLinux (cwd path : String) : String :=
  rootedPath (cleanSegs (splitSegs '/'
    (if path.data.head? = some '/' then path.data
     else cwd.data ++ '/' :: path.data).tail))

/-- Cross-OS (Windows host, Linux environment) translation: resolve
against the (Windows) working directory, then rewrite the drive letter
and backslash segments to `/mnt/<lowercase-drive>/…`. -/
def toContainerPathWindows (cwd path : String) : String :=
  let abs : List Char :=
    if isWinAbs path.data then path.data else cwd.data ++ '\\' :: path.data
  match abs with
  | d :: _ :: _ :: rest =>
      String.mk ('/' :: 'm' :: 'n' :: 't' :: '/' :: d.toLower ::
        List.intercalate ['/'] ([] :: cleanSegs (splitSegs '\\' rest)))
  | _ => String.mk abs

/-- Host operating systems the translation distinguishes
(`runtime.GOOS`). -/
inductive GOOS where
  | linux
  | windows
deriving DecidableEq

/-- `ToContainerPath(hostPath)`, with the host OS and working directory
made explicit parameters. -/
def ToContainerPath (goos : GOOS) (cwd path : String) : String :=
  match goos with
  | .linux => toContainerPathLinux cwd path
  | .windows => toContainerPathWindows cwd path


/-- A path segment that cleaning leaves alone: nonempty, not `.`, not
`..`. -/
def keptSeg (s : List Char) : Prop :=
  s ≠ [] ∧ s ≠ ['.'] ∧ s ≠ ['.', '.']

instance (s : List Char) : Decidable (keptSeg s) := by
  unfold keptSeg; infer_instance

theorem cleanSegs_foldl (segs : List (List Char))
    (h : ∀ s ∈ segs, keptSeg s) :
    ∀ acc, segs.foldl
      (fun acc seg =>
        if seg = ([] : List Char) ∨ seg = ['.'] then acc
        else if seg = ['.', '.'] then acc.dropLast
        else acc ++ [seg]) acc = acc ++ segs := by
  induction segs with
  | nil => intro acc; simp
  | cons s t ih =>
      intro acc
      obtain ⟨h1, h2, h3⟩ := h s (List.mem_cons_self s t)
      simp only [List.foldl_cons, if_neg (not_or.mpr ⟨h1, h2⟩), if_neg h3]
      rw [ih (fun x hx => h x (List.mem_cons_of_mem s hx)) (acc ++ [s])]
      simp

/-- Cleaning is the identity on clean segment lists. -/
theorem cleanSegs_of_kept (segs : List (List Char))
    (h : ∀ s ∈ segs, keptSeg s) : cleanSegs segs = segs := by
  unfold cleanSegs
  rw [cleanSegs_foldl segs h []]
  simp

/-- A trailing `.` segment is dropped by cleaning. -/
theorem cleanSegs_append_dot (l : List (List Char)) :
    cleanSegs (l ++ [['.']]) = cleanSegs l := by
  unfold cleanSegs
  rw [List.foldl_append]
  simp

theorem intercalate_cons_of_ne_nil {α : Type} (x : α) (a : List α)
    (l : List (List α)) (hl : l ≠ []) :
    [x].intercalate (a :: l) = a ++ x :: [x].intercalate l := by
  cases l with
  | nil => simp at hl
  | cons b t => simp [List.intercalate]

theorem intercalate_append_singleton {α : Type} (x : α)
    (l : List (List α)) (a : List α) (hl : l ≠ []) :
    [x].intercalate (l ++ [a]) = [x].intercalate l ++ x :: a := by
  induction l with
  | nil => simp at hl
  | cons b t ih =>
      cases t with
      | nil => simp [List.intercalate]
      | cons c u =>
          rw [List.cons_append,
            intercalate_cons_of_ne_nil x b ((c :: u) ++ [a]) (by simp),
            intercalate_cons_of_ne_nil x b (c :: u) (by simp),
            ih (by simp)]
          simp

theorem toContainerPathLinux_rooted (cwd : String) (l : List Char) :
    toContainerPathLinux cwd (String.mk ('/' :: l)) =
      rootedPath (cleanSegs (splitSegs '/' l)) := by
  unfold toContainerPathLinux
  have hc : (String.mk ('/' :: l)).data.head? = some '/' := rfl
  rw [if_pos hc]
  rfl

theorem toContainerPathLinux_not_rooted (cwd path : String)
    (h : path.data.head? ≠ some '/') :
    toContainerPathLinux cwd path =
      rootedPath (cleanSegs (splitSegs '/' (cwd.data ++ '/' :: path.data).tail)) := by
  unfold toContainerPathLinux
  rw [if_neg h]

theorem toContainerPathWindows_abs (cwd : String) (d : Char)
    (rest : List Char) (hd : d.isAlpha = true) :
    toContainerPathWindows cwd (String.mk (d :: ':' :: '\\' :: rest)) =
      String.mk ('/' :: 'm' :: 'n' :: 't' :: '/' :: d.toLower ::
        List.intercalate ['/'] ([] :: cleanSegs (splitSegs '\\' rest))) := by
  unfold toContainerPathWindows
  rw [if_pos (by simp [isWinAbs, hd])]

/-- C8 counterexample, after the `{"/home/gha", "/home/gha/", ""}` row of
`TestContainerPath`: on a same-OS Linux host the path `/home/gha/` is not
returned unchanged — its trailing separator is cleaned away. -/
theorem toContainerPath_not_unchanged :
    ToContainerPath .linux "/root" "/home/gha/" = "/home/gha" ∧
    ("/home/gha" : String) ≠ "/home/gha/" := ⟨rfl, by decide⟩

/-- C8 amended: `ToContainerPath` is a deterministic translation.  On a
same-OS (Linux) host the path is resolved against the working directory
and returned in `filepath.Clean`-ed form: an already-clean absolute path
is returned unchanged, and `.` resolves to the (clean) working directory.
On a Windows host with a Linux environment, an absolute path
`X:\s1\…\sk` with clean backslash segments is rewritten to
`/mnt/<lowercase drive letter>/s1/…/sk`; in particular `C:\Users\x`
becomes `/mnt/c/Users/x`. -/
theorem toContainerPath_translation (cwd : String) (segs : List (List Char))
    (hne : segs ≠ []) (hkept : ∀ s ∈ segs, keptSeg s)
    (hsep : ∀ s ∈ segs, '/' ∉ s) :
    ToContainerPath .linux cwd (rootedPath segs) = rootedPath segs ∧
    ToContainerPath .linux (rootedPath segs) "." = rootedPath segs ∧
    (∀ (d : Char) (wsegs : List (List Char)), d.isAlpha = true →
      wsegs ≠ [] → (∀ s ∈ wsegs, keptSeg s) → (∀ s ∈ wsegs, '\\' ∉ s) →
      ToContainerPath .windows cwd
          (String.mk (d :: ':' :: '\\' :: List.intercalate ['\\'] wsegs)) =
        String.mk ('/' :: 'm' :: 'n' :: 't' :: '/' :: d.toLower ::
          List.intercalate ['/'] ([] :: wsegs))) ∧
    ToContainerPath .windows cwd "C:\\Users\\x" = "/mnt/c/Users/x" := by
  refine ⟨?_, ?_, ?_, rfl⟩
  · show toContainerPathLinux cwd (rootedPath segs) = rootedPath segs
    unfold rootedPath
    rw [toContainerPathLinux_rooted]
    unfold splitSegs
    rw [List.splitOn_intercalate segs '/' hsep hne, cleanSegs_of_kept segs hkept]
    rfl
  · show toContainerPathLinux (rootedPath segs) "." = rootedPath segs
    rw [toContainerPathLinux_not_rooted _ _ (by decide)]
    have hdata : (rootedPath segs).data ++ '/' :: ("." : String).data =
        '/' :: List.intercalate ['/'] (segs ++ [['.']]) := by
      show ('/' :: List.intercalate ['/'] segs) ++ ['/', '.'] = _
      rw [intercalate_append_singleton '/' segs ['.'] hne]
      simp
    rw [hdata]
    unfold splitSegs
    rw [show ('/' :: List.intercalate ['/'] (segs ++ [['.']])).tail =
      List.intercalate ['/'] (segs ++ [['.']]) from rfl]
    rw [List.splitOn_intercalate (segs ++ [['.']]) '/' ?hsep (by simp)]
    case hsep =>
      intro l hl
      rcases List.mem_append.mp hl with h | h
      · exact hsep l h
      · simp at h; subst h; decide
    rw [cleanSegs_append_dot, cleanSegs_of_kept segs hkept]
  · intro d wsegs hd hwne hwkept hwsep
    show toContainerPathWindows cwd _ = _
    rw [toContainerPathWindows_abs cwd d _ hd]
    unfold splitSegs
    rw [List.splitOn_intercalate wsegs '\\' hwsep hwne, cleanSegs_of_kept wsegs hwkept]

/-- Witness for `toContainerPath_translation` on the segments of
`/home/gha` (rows of `TestContainerPath`). -/
theorem toContainerPath_translation_witness :
    ToContainerPath .linux "/wd"
        (rootedPath [['h', 'o', 'm', 'e'], ['g', 'h', 'a']]) =
      rootedPath [['h', 'o', 'm', 'e'], ['g', 'h', 'a']] ∧
    ToContainerPath .linux (rootedPath [['h', 'o', 'm', 'e'], ['g', 'h', 'a']])
        "." = rootedPath [['h', 'o', 'm', 'e'], ['g', 'h', 'a']] ∧
    ToContainerPath .windows "/wd" "C:\\Users\\x" = "/mnt/c/Users/x" := by
  have h := toContainerPath_translation "/wd" [['h', 'o', 'm', 'e'], ['g', 'h', 'a']]
    (by decide) (by decide) (by decide)
  exact ⟨h.1, h.2.1, h.2.2.2⟩

/-! ## Step lifecycle: the main phase of a `run` step -/

/-- A file materialized inside the execution environment
(`container.FileEntry`: Name, Mode, Body). -/
structure FileEntry where
  name : String
  mode : Nat
  body : String
deriving DecidableEq, Repr

/-- One observable execution-environment operation issued by a step. -/
inductive EnvOp where
  | copy (destPath : String) (entries : List FileEntry)
  | exec (cmd : List String) (user workdir : String)
  | updateFromEnv (path : String)
  | getContainerArchive (path : String)
deriving DecidableEq, Repr

/-- Outcome of the `Exec` call: either the environment was unreachable
(the process never ran) or the process ran and exited with a code. -/
inductive ExecOutcome where
  | notReachable
  | exited (code : Nat)
deriving DecidableEq, Repr

/-- The run-scoped directory inside the environment (`ActPath`),
pinned by `TestStepRun` to `/var/run/gha`. -/
def actPath : String := "/var/run/gha"

/-- Modelled from the spec: `pkg/runner/step_run.go` is absent from the
sources (only `step_run_test.go` is present).  Per the spec the main
phase of a `Run` step renders the command, writes it as an executable
script `FileEntry` via `Copy` into the run-scoped directory, invokes
`Exec` with the resolved shell and working directory, and afterwards —
regardless of the exit status, provided the process ran — calls
`UpdateFromEnv` against the three well-known files (environment
declarations `envs.txt`, persisted state `statecmd.txt`, outputs
`outputcmd.txt`) and retrieves the summary and path artifacts via
`GetContainerArchive`.  The script name `workflow/<step-id>.sh`, its
`0755` mode, the wrapped body, the `bash` shell vector and the five file
paths are pinned by `TestStepRun`.  Returns the trace of environment
operations together with the step result. -/
def stepRunMain (stepID rendered workdir : String)
    (outcome : ExecOutcome) : List EnvOp × Option Err :=
  let scriptName := "workflow/" ++ stepID ++ ".sh"
  let script : FileEntry := ⟨scriptName, 0o755, "\n" ++ rendered ++ "\n"⟩
  let cmd := ["bash", "--noprofile", "--norc", "-e", "-o", "pipefail",
    actPath ++ "/" ++ scriptName]
  let pre := [EnvOp.copy actPath [script], EnvOp.exec cmd "" workdir]
  match outcome with
  | .notReachable => (pre, some Err.notReachable)
  | .exited code =>
      (pre ++
        [EnvOp.updateFromEnv (actPath ++ "/workflow/envs.txt"),
         EnvOp.updateFromEnv (actPath ++ "/workflow/statecmd.txt"),
         EnvOp.updateFromEnv (actPath ++ "/workflow/outputcmd.txt"),
         EnvOp.getContainerArchive (actPath ++ "/workflow/SUMMARY.md"),
         EnvOp.getContainerArchive (actPath ++ "/workflow/pathcmd.txt")],
       if code = 0 then none else some (Err.executionFailed code))

/-- C7: for every `Run` step whose process ran, whatever its exit code,
the main phase emits exactly: the `Copy` of the rendered executable
script into the run-scoped directory, the `Exec` with the resolved shell
and working directory, then `UpdateFromEnv` on exactly the three
well-known files (environment declarations, persisted state, outputs)
and `GetContainerArchive` for the summary and path artifacts; when the
process never ran, none of the recovery reads happen. -/
theorem stepRun_main_trace (stepID rendered workdir : String) (code : Nat) :
    ((stepRunMain stepID rendered workdir (.exited code)).1 =
      [EnvOp.copy actPath
         [⟨"workflow/" ++ stepID ++ ".sh", 0o755, "\n" ++ rendered ++ "\n"⟩],
       EnvOp.exec ["bash", "--noprofile", "--norc", "-e", "-o", "pipefail",
         actPath ++ "/" ++ ("workflow/" ++ stepID ++ ".sh")] "" workdir,
       EnvOp.updateFromEnv (actPath ++ "/workflow/envs.txt"),
       EnvOp.updateFromEnv (actPath ++ "/workflow/statecmd.txt"),
       EnvOp.updateFromEnv (actPath ++ "/workflow/outputcmd.txt"),
       EnvOp.getContainerArchive (actPath ++ "/workflow/SUMMARY.md"),
       EnvOp.getContainerArchive (actPath ++ "/workflow/pathcmd.txt")]) ∧
    (∀ p, EnvOp.updateFromEnv p ∈
        (stepRunMain stepID rendered workdir (.exited code)).1 ↔
      p ∈ [actPath ++ "/workflow/envs.txt", actPath ++ "/workflow/statecmd.txt",
           actPath ++ "/workflow/outputcmd.txt"]) ∧
    (∀ p, EnvOp.getContainerArchive p ∈
        (stepRunMain stepID rendered workdir (.exited code)).1 ↔
      p ∈ [actPath ++ "/workflow/SUMMARY.md", actPath ++ "/workflow/pathcmd.txt"]) ∧
    (∀ p, EnvOp.updateFromEnv p ∉
        (stepRunMain stepID rendered workdir .notReachable).1) := by
  refine ⟨rfl, ?_, ?_, ?_⟩
  · intro p; simp [stepRunMain]
  · intro p; simp [stepRunMain]
  · intro p; simp [stepRunMain]

/-! ## Index cache (`pkg/cache/index.go`)

The resolve functions of `IndexCache` are translated from
`src/pkg/cache/index.go`: try the input as a stored index first (only
when it parses as an integer), then fall back to treating it as a direct
64-bit ID, and fail only when it is not a number at all.  Go maps keyed
by decimal strings become association lists; the error strings are
abbreviated. -/

/-- The numeric value of a decimal digit character. -/
def digitVal (c : Char) : Option Nat :=
  if c.isDigit then some (c.toNat - ('0' : Char).toNat) else none

/-- Parses a nonempty all-digit character list as a natural number. -/
def parseNatDigits : List Char → Option Nat
  | [] => none
  | ds => ds.foldl
      (fun acc c =>
        match acc, digitVal c with
        | some n, some d => some (n * 10 + d)
        | _, _ => none)
      (some 0)

/-- `strconv.ParseInt(s, 10, 64)`: an optional leading sign followed by
at least one decimal digit, range-checked against the signed 64-bit
range. -/
def parseInt64 (s : String) : Option Int :=
  let signDigits : Bool × List Char :=
    match s.data with
    | '-' :: rest => (true, rest)
    | '+' :: rest => (false, rest)
    | l => (false, l)
  match parseNatDigits signDigits.2 with
  | none => none
  | some n =>
      let v : Int := if signDigits.1 then -(n : Int) else (n : Int)
      if -(2 ^ 63) ≤ v ∧ v ≤ 2 ^ 63 - 1 then some v else none

/-- `strconv.Atoi(s)`, i.e. `ParseInt(s, 10, 0)`: with the platform
`int` being 64-bit, the accepted range is the `int64` range. -/
def atoi (s : String) : Option Int := parseInt64 s

/-- The index cache (`IndexCache`): map from decimal index strings
(`strconv.Itoa(i+1)`) to workflow/run IDs, and per-run job index maps. -/
structure IndexCache where
  workflows : List (String × Int)
  runs : List (String × Int)
  runJobs : List (String × List (String × Int))
deriving DecidableEq, Repr

/-- Go map lookup `m[k]` on an association list. -/
def lookupKey (m : List (String × Int)) (k : String) : Option Int :=
  (m.find? (fun p => p.1 == k)).map Prod.snd

/-- Go map lookup `c.RunJobs[runIDStr]`. -/
def lookupRunJobs (m : List (String × List (String × Int))) (k : String) :
    Option (List (String × Int)) :=
  (m.find? (fun p => p.1 == k)).map Prod.snd

/-- The index hit of `ResolveJobID`: the stored job ID for `input` under
run `runID`, consulted only when `input` parses as an integer there. -/
def lookupJobKey (c : IndexCache) (runID : Int) (input : String) : Option Int :=
  match lookupRunJobs c.runJobs (toString runID) with
  | some jobs => lookupKey jobs input
  | none => none

/-- `ResolveWorkflowID` (`src/pkg/cache/index.go:83-100`). -/
def ResolveWorkflowID (c : IndexCache) (input : String) : Except String Int :=
  let indexHit : Option Int :=
    match atoi input with
    | some _ => lookupKey c.workflows input
    | none => none
  match indexHit with
  | some workflowID => .ok workflowID
  | none =>
      match parseInt64 input with
      | some id => .ok id
      | none => .error ("workflow index " ++ input ++ " not found")

/-- `ResolveRunID` (`src/pkg/cache/index.go:102-119`). -/
def ResolveRunID (c : IndexCache) (input : String) : Except String Int :=
  let indexHit : Option Int :=
    match atoi input with
    | some _ => lookupKey c.runs input
    | none => none
  match indexHit with
  | some runID => .ok runID
  | none =>
      match parseInt64 input with
      | some id => .ok id
      | none => .error ("run index " ++ input ++ " not found")

/-- `ResolveJobID` (`src/pkg/cache/index.go:121-141`). -/
def ResolveJobID (c : IndexCache) (runID : Int) (input : String) :
    Except String Int :=
  let indexHit : Option Int :=
    match atoi input with
    | some _ => lookupJobKey c runID input
    | none => none
  match indexHit with
  | some jobID => .ok jobID
  | none =>
      match parseInt64 input with
      | some id => .ok id
      | none =>
          .error ("job index " ++ input ++ " not found for run " ++ toString runID)

/-- C10: for every input to the three resolve functions: when the input
parses as a 64-bit integer (`Atoi` and the 64-bit `ParseInt` coincide on
a 64-bit platform), the stored index hit is returned if the input is a
stored key, and otherwise the parsed number itself is returned as the ID
without error; an error is returned exactly when the input does not parse
as a 64-bit integer — a numeric input that is no known index is silently
treated as a raw ID. -/
theorem indexCache_resolve_spec (c : IndexCache) (runID : Int)
    (input : String) :
    (∀ n, parseInt64 input = some n →
      ResolveRunID c input = .ok ((lookupKey c.runs input).getD n) ∧
      ResolveWorkflowID c input = .ok ((lookupKey c.workflows input).getD n) ∧
      ResolveJobID c runID input = .ok ((lookupJobKey c runID input).getD n)) ∧
    (parseInt64 input = none →
      (∃ e, ResolveRunID c input = .error e) ∧
      (∃ e, ResolveWorkflowID c input = .error e) ∧
      (∃ e, ResolveJobID c runID input = .error e)) := by
  constructor
  · intro n hp
    have ha : atoi input = some n := hp
    refine ⟨?_, ?_, ?_⟩
    · unfold ResolveRunID
      rw [ha]
      cases hl : lookupKey c.runs input <;> simp [hl, hp]
    · unfold ResolveWorkflowID
      rw [ha]
      cases hl : lookupKey c.workflows input <;> simp [hl, hp]
    · unfold ResolveJobID
      rw [ha]
      cases hl : lookupJobKey c runID input <;> simp [hl, hp]
  · intro hp
    have ha : atoi input = none := hp
    refine ⟨⟨"run index " ++ input ++ " not found", ?_⟩,
      ⟨"workflow index " ++ input ++ " not found", ?_⟩,
      ⟨"job index " ++ input ++ " not found for run " ++ toString runID, ?_⟩⟩
    · unfold ResolveRunID; rw [ha]; simp [hp]
    · unfold ResolveWorkflowID; rw [ha]; simp [hp]
    · unfold ResolveJobID; rw [ha]; simp [hp]

end Gha
